import Mathlib

/-!
Shallow embedding, in Lean, of the core of a black-box test oracle written
in Rust: its rule engine (plain-text, regular-expression and integer-range
rules, in `rules.rs`), its line-protocol process communicator
(`communicator.rs`) and its trial runner (`worker_thread.rs`,
`run_manager.rs`).  Byte strings are embedded as `List ℕ` (one entry per
byte), Rust `&str` values as `List Char`, machine integers as `ℕ`/`ℤ` with
explicit `% 2^w` or range checks where the width matters, and every random
decision drawn from the thread RNG is consumed from an explicit oracle of
natural numbers, so that all definitions stay executable.
-/

/-! ## Characters and byte strings: the Rust primitives used by the code -/

/-- The Unicode `White_Space` code points, as used by Rust's
`char::is_whitespace` and hence by `str::trim`. -/
def isRustWhitespace (c : Char) : Bool :=
  c.toNat = 0x09 ∨ c.toNat = 0x0A ∨ c.toNat = 0x0B ∨ c.toNat = 0x0C ∨
  c.toNat = 0x0D ∨ c.toNat = 0x20 ∨ c.toNat = 0x85 ∨ c.toNat = 0xA0 ∨
  c.toNat = 0x1680 ∨ (0x2000 ≤ c.toNat ∧ c.toNat ≤ 0x200A) ∨
  c.toNat = 0x2028 ∨ c.toNat = 0x2029 ∨ c.toNat = 0x202F ∨
  c.toNat = 0x205F ∨ c.toNat = 0x3000

/-- `str::trim`: remove leading and trailing whitespace. -/
def trimChars (s : List Char) : List Char :=
  ((s.dropWhile isRustWhitespace).reverse.dropWhile isRustWhitespace).reverse

/-- Whitespace bytes, as recognised by `bstr`'s `trim_end` on the ASCII
range (the multi-byte UTF-8 white-space code points that `bstr` also trims
never occur in the byte strings the claims are about). -/
def isWsByte (b : ℕ) : Bool :=
  b = 0x09 ∨ b = 0x0A ∨ b = 0x0B ∨ b = 0x0C ∨ b = 0x0D ∨ b = 0x20

/-- `bstr`'s `trim_end`: remove trailing whitespace bytes. -/
def trimEndBytes (s : List ℕ) : List ℕ :=
  (s.reverse.dropWhile isWsByte).reverse

/-- `str::split(sep)`: split at every occurrence of `sep`, keeping empty
pieces. -/
def splitChar (sep : Char) : List Char → List (List Char)
  | [] => [[]]
  | c :: rest =>
    if c = sep then
      [] :: splitChar sep rest
    else
      match splitChar sep rest with
      | [] => [[c]]
      | piece :: pieces => (c :: piece) :: pieces

/-- Strip one trailing carriage return, as `str::lines` does on every
line. -/
def stripTrailingCR (s : List Char) : List Char :=
  match s.reverse with
  | '\r' :: rest => rest.reverse
  | _ => s

/-- `str::lines`: split at `\n` (a final line ending is optional, so a
trailing empty piece is dropped) and strip one trailing `\r` from each
line. -/
def linesOf (s : List Char) : List (List Char) :=
  let pieces := splitChar '\n' s
  let pieces :=
    match pieces.getLast? with
    | some [] => pieces.dropLast
    | _ => pieces
  pieces.map stripTrailingCR

/-- `str::split_once("..")`: split at the first occurrence of the two-dot
separator. -/
def splitOnceDots : List Char → Option (List Char × List Char)
  | [] => none
  | '.' :: '.' :: rest => some ([], rest)
  | c :: rest =>
    match splitOnceDots rest with
    | some (left, right) => some (c :: left, right)
    | none => none

/-! ## Decimal integers: Rust's `i64::from_str` and `i64::to_string` -/

/-- The value of an ASCII decimal digit. -/
def digitVal (c : Char) : Option ℕ :=
  if '0' ≤ c ∧ c ≤ '9' then some (c.toNat - 48) else none

/-- Accumulate decimal digits, failing on the first non-digit. -/
def parseDigitsAux : List Char → ℕ → Option ℕ
  | [], acc => some acc
  | c :: cs, acc =>
    match digitVal c with
    | some d => parseDigitsAux cs (acc * 10 + d)
    | none => none

/-- Parse a non-empty string of decimal digits. -/
def parseDigits : List Char → Option ℕ
  | [] => none
  | cs => parseDigitsAux cs 0

/-- Rust's `i64::from_str`: an optional sign, then one or more decimal
digits and nothing else; the value must fit in an `i64` (an overflowing
literal is a parse error). -/
def parseInt (s : List Char) : Option ℤ :=
  match s with
  | [] => none
  | c :: rest =>
    let isNeg : Bool := c = '-'
    let digits : List Char := if c = '-' ∨ c = '+' then rest else c :: rest
    match parseDigits digits with
    | none => none
    | some n =>
      let v : ℤ := if isNeg then -(n : ℤ) else (n : ℤ)
      if -(2 ^ 63) ≤ v ∧ v ≤ 2 ^ 63 - 1 then some v else none

/-- The decimal digits of a natural number, most significant first. -/
def natToChars (n : ℕ) : List Char :=
  if n = 0 then ['0']
  else (Nat.digits 10 n).reverse.map fun d => Char.ofNat (48 + d)

/-- Rust's `i64::to_string` (via the `Display` implementation). -/
def intToChars (n : ℤ) : List Char :=
  if n < 0 then '-' :: natToChars n.natAbs else natToChars n.toNat

/-! ## `OpReport` and the `IntRanges` rule (`rules.rs`) -/

/-- `worker_thread.rs`: the per-operation verdict. -/
inductive OpReport where
  | Success
  | Failure (error_message : String)
deriving DecidableEq, Repr

/-- The reasons `IntRanges::parse` can fail.  The Rust code wraps them in
formatted `anyhow` messages (with line, offset and caret rendering); only
the error case itself matters to the claims, so the payloads keep the bad
token's data instead of the rendered text. -/
inductive RangeParseErr where
  | badInt
  | invertedRange (start stop : ℤ)
  | emptyField
deriving DecidableEq, Repr

/-- `rules.rs`: an `IntRanges` rule is a list of inclusive `i64` ranges
plus the original text. -/
structure IntRanges where
  ranges : List (ℤ × ℤ)
  orig_text : List Char
deriving DecidableEq, Repr

/-- One comma-separated element of a line: either `A..B` (split at the
first `..`, both sides trimmed and parsed, an inverted range rejected) or
a bare integer. -/
def parseRangeElem (elem : List Char) : Except RangeParseErr (ℤ × ℤ) :=
  match splitOnceDots elem with
  | some (start, stop) =>
    match parseInt (trimChars start) with
    | none => .error .badInt
    | some s =>
      match parseInt (trimChars stop) with
      | none => .error .badInt
      | some e =>
        if s > e then .error (.invertedRange s e) else .ok (s, e)
  | none =>
    match parseInt (trimChars elem) with
    | none => .error .badInt
    | some n => .ok (n, n)

/-- The elements of one line (`line.split(',').map(str::trim)`), processed
left to right with an early return on the first error. -/
def parseRangeElems : List (List Char) → Except RangeParseErr (List (ℤ × ℤ))
  | [] => .ok []
  | e :: es =>
    match parseRangeElem (trimChars e) with
    | .error err => .error err
    | .ok r =>
      match parseRangeElems es with
      | .error err => .error err
      | .ok rs => .ok (r :: rs)

/-- All lines of the text, processed in order. -/
def parseRangeLines : List (List Char) → Except RangeParseErr (List (ℤ × ℤ))
  | [] => .ok []
  | l :: ls =>
    match parseRangeElems (splitChar ',' l) with
    | .error err => .error err
    | .ok rs =>
      match parseRangeLines ls with
      | .error err => .error err
      | .ok rest => .ok (rs ++ rest)

/-- `IntRanges::parse`: split the text into lines and comma-separated
elements, parse each element, and reject an overall empty result. -/
def IntRanges.parse (text : List Char) : Except RangeParseErr IntRanges :=
  match parseRangeLines (linesOf text) with
  | .error e => .error e
  | .ok ranges =>
    if ranges.isEmpty then .error .emptyField
    else .ok ⟨ranges, text⟩

/-- `i64::wrapping_sub` followed by `unsigned_abs`, on mathematical
integers: the difference reduced modulo `2^64` into the signed range, then
its absolute value. -/
def i64WrappingSubAbs (a b : ℤ) : ℕ :=
  let d := (a - b) % (2 ^ 64)
  (if d < 2 ^ 63 then d else d - 2 ^ 64).natAbs

/-- The weight `choose_weighted` gives one range in
`IntRanges::generate`: the range's cardinality, computed with a wrapping
subtraction and a saturating increment (the sum stays far below the
`u128` bound, so the saturation never fires). -/
def rangeWeight (r : ℤ × ℤ) : ℕ :=
  i64WrappingSubAbs r.2 r.1 + 1

/-- `choose_weighted`: walk the list, subtracting each weight from the
drawn position until it falls inside a range's weight band. -/
def pickWeighted : List (ℤ × ℤ) → ℕ → Option (ℤ × ℤ)
  | [], _ => none
  | r :: rs, u =>
    let w := rangeWeight r
    if u < w then some r else pickWeighted rs (u - w)

/-- `IntRanges::generate`: pick a range with probability proportional to
its weight, then a value uniformly inside it, and render it in decimal.
The two random draws are supplied by the oracle values `c1` and `c2`;
`none` models the `unwrap` panics on an empty choice. -/
def IntRanges.generate (R : IntRanges) (c1 c2 : ℕ) : Option (List Char) :=
  let total := (R.ranges.map rangeWeight).sum
  match pickWeighted R.ranges (c1 % total) with
  | none => none
  | some r =>
    let cnt := (r.2 - r.1 + 1).toNat
    if cnt = 0 then none
    else some (intToChars (r.1 + ((c2 % cnt : ℕ) : ℤ)))

/-- The message `IntRanges::failure_msg` builds around the original
text. -/
def IntRanges.failure_msg (R : IntRanges) : String :=
  "integer expected inside the ranges: " ++ String.mk R.orig_text

/-- `IntRanges::validate`: parse the observed text as an `i64` (the byte
string is ASCII here, so the lossy UTF-8 conversion is the identity) and
succeed exactly when the value lies in at least one stored range. -/
def IntRanges.validate (R : IntRanges) (text : List Char) : OpReport :=
  match parseInt text with
  | some num =>
    if R.ranges.any fun r => r.1 ≤ num ∧ num ≤ r.2 then .Success
    else .Failure R.failure_msg
  | none => .Failure "an integer was expected (conversion error)"

/-- Whether the tokenization of `text` contains an explicit range token
`A..B` whose two sides parse as integers with `A > B`. -/
def hasInvertedRange (text : List Char) : Bool :=
  (linesOf text).any fun line =>
    (splitChar ',' line).any fun e =>
      match splitOnceDots (trimChars e) with
      | some (start, stop) =>
        match parseInt (trimChars start), parseInt (trimChars stop) with
        | some s, some e => decide (e < s)
        | _, _ => false
      | none => false

/-- Whether an `Except` value is an error. -/
def isErr : Except ε α → Bool
  | .error _ => true
  | .ok _ => false

/-! ## The process communicator (`communicator.rs`)

The child process itself is outside the embedding: its pending standard
output is a list of raw chunks (each chunk is what one `read_until(b'\n')`
call returns, an empty chunk modelling a closed stream), and its exit
status is a `ProcessExit` record handed to `finish`. -/

/-- `communicator.rs` `Item`: one tagged transcript entry. -/
inductive HistItem where
  | Stdin (bytes : List ℕ)
  | Stdout (bytes : List ℕ)
deriving DecidableEq, Repr

/-- The communicator: the process's not-yet-read output chunks, the bytes
written to its input stream so far, and the transcript. -/
structure Communicator where
  pending : List (List ℕ)
  sentBytes : List ℕ
  history : List HistItem
deriving DecidableEq, Repr

/-- `Communicator::read_line`: take the next chunk (empty once the stream
is exhausted), strip trailing whitespace with `bstr`'s `trim_end`, record
a `Stdout` transcript entry and return the stripped bytes. -/
def Communicator.read_line (c : Communicator) : List ℕ × Communicator :=
  let chunk := c.pending.headD []
  let s := trimEndBytes chunk
  (s, { c with pending := c.pending.tail, history := c.history ++ [.Stdout s] })

/-- `Communicator::write_line`: push a newline terminator onto the line,
write the result to the process's input stream, and record the written
bytes (terminator included) as a `Stdin` transcript entry. -/
def Communicator.write_line (c : Communicator) (line : List ℕ) : Communicator :=
  let line := line ++ [10]
  { c with
    sentBytes := c.sentBytes ++ line
    history := c.history ++ [.Stdin line] }

/-- What `wait_with_output` can report about the terminated child in this
program.  `Communicator::new` has already `take`n the child's stdout
handle into the `BufReader`, and stderr was never piped (`run_tests` sets
up only `stdin` and `stdout`), so the `Child`'s `stdout` and `stderr`
fields are both `None` by the time `finish` calls `wait_with_output`: the
returned `output.stdout` and `output.stderr` byte vectors are always
empty, no matter how much unread output sits in `pending`.  Only the exit
status (whether it was a success, i.e. a zero exit code) carries
information. -/
structure ProcessExit where
  exit_success : Bool
deriving DecidableEq, Repr

/-- `communicator.rs` `CommReport`. -/
inductive CommReport where
  | Success (history : List HistItem)
  | NonEmptyStdout (history : List HistItem)
  | ProgramError (history : List HistItem) (stderr_bytes : List ℕ)
deriving DecidableEq, Repr

/-- `Communicator::finish`: call `wait_with_output`, append any reported
residual output to the transcript, then classify by exit status and
reported-stdout emptiness.  In this program the reported stdout and
stderr are the constants `[]` (see `ProcessExit`), so the
`NonEmptyStdout` branch and the transcript append are dead code, and
unread chunks in `pending` never reach the classification. -/
def Communicator.finish (c : Communicator) (out : ProcessExit) : CommReport :=
  let output_stdout : List ℕ := []
  let output_stderr : List ℕ := []
  let hist :=
    if output_stdout.isEmpty then c.history
    else c.history ++ [.Stdout output_stdout]
  if out.exit_success then
    if output_stdout.isEmpty then .Success hist else .NonEmptyStdout hist
  else .ProgramError hist output_stderr

/-- The transcript a `CommReport` carries. -/
def CommReport.histOf : CommReport → List HistItem
  | .Success h => h
  | .NonEmptyStdout h => h
  | .ProgramError h _ => h

/-! ## The trial runner (`worker_thread.rs`) -/

/-- `worker_thread.rs` `TestReport`.  The `Error(anyhow::Error)` variant,
produced from the `?` propagation of infrastructure faults, is embedded as
the `.error` side of an `Except String` wrapper around the run functions
instead. -/
inductive TestReport where
  | Success
  | Failure (history : List HistItem) (error_message : String)
deriving DecidableEq, Repr

/-- One rule behind a `Box<dyn Rule>`: `run_single` and `Operation::exec`
only ever use this interface.  `generate` consumes random-oracle values
and may fail (regular-expression generation fails on look-around
constructs); `validate` is total. -/
structure RuleImpl where
  generate : List ℕ → Except String (List ℕ × List ℕ)
  validate : List ℕ → OpReport

/-- `worker_thread.rs` `Operation`. -/
inductive Operation where
  | Output (rule : RuleImpl)
  | Input (rule : RuleImpl)

/-- `Operation::exec`: an `Input` generates a value and writes it (always
a success report); an `Output` reads one line and validates it. -/
def Operation.exec (op : Operation) (comm : Communicator) (cs : List ℕ) :
    Except String (OpReport × Communicator × List ℕ) :=
  match op with
  | .Input rule =>
    match rule.generate cs with
    | .error e => .error e
    | .ok (s, cs') => .ok (.Success, comm.write_line s, cs')
  | .Output rule =>
    .ok (rule.validate (comm.read_line).1, (comm.read_line).2, cs)

/-- `Runner::run_single`: execute the operations in script order, stopping
at the first validation failure with the transcript accumulated so far;
if all pass, classify the process's exit with `finish`. -/
def runSingle : List Operation → Communicator → List ℕ → ProcessExit →
    Except String TestReport
  | [], comm, _, px =>
    match comm.finish px with
    | .Success _ => .ok .Success
    | .NonEmptyStdout h => .ok (.Failure h "the program produced extra output")
    | .ProgramError h _ => .ok (.Failure h "the program did not exit successfully")
  | op :: rest, comm, cs, px =>
    match op.exec comm cs with
    | .error e => .error e
    | .ok (.Success, comm', cs') => runSingle rest comm' cs' px
    | .ok (.Failure msg, comm', _) => .ok (.Failure comm'.history msg)

/-- Run a prefix of operations all of which succeed, returning the
resulting communicator and oracle; `none` if any of them fails or errors. -/
def execOps : List Operation → Communicator → List ℕ → Option (Communicator × List ℕ)
  | [], comm, cs => some (comm, cs)
  | op :: rest, comm, cs =>
    match op.exec comm cs with
    | .ok (.Success, comm', cs') => execOps rest comm' cs'
    | _ => none

/-- The repeated-trial loop of `Runner::run_tests`, for trials that finish
without an infrastructure error.  `solved` is the shared `AtomicU32`
counter; each pass `fetch_add`s it (wrapping at `2^32`) and compares the
*old* value against the required count (a `u32`, hence the `% 2^32`), so
the stored value is `(solved + 1) % 2^32` even on the exiting check.
Returns the final report, the number of trials executed, and the trace of
values successively stored in the shared counter. -/
def runTestsLoop (trial : ℕ → TestReport) (required solved : ℕ) :
    TestReport × ℕ × List ℕ :=
  if solved < required % 2 ^ 32 then
    match trial solved with
    | .Success =>
      let r := runTestsLoop trial required ((solved + 1) % 2 ^ 32)
      (r.1, r.2.1 + 1, ((solved + 1) % 2 ^ 32) :: r.2.2)
    | other => (other, 1, [(solved + 1) % 2 ^ 32])
  else (.Success, 0, [(solved + 1) % 2 ^ 32])
termination_by required % 2 ^ 32 - solved
decreasing_by omega

/-! ## The `PlainText` rule (`rules.rs`) -/

/-- `rules.rs` `PlainText`: an exact-match literal (stored as its
bytes). -/
structure PlainText where
  text : List ℕ
deriving DecidableEq, Repr

/-- `PlainText::generate`: the stored literal itself. -/
def PlainText.generate (p : PlainText) : List ℕ := p.text

/-- `PlainText::validate`: byte-exact equality. -/
def PlainText.validate (p : PlainText) (t : List ℕ) : OpReport :=
  if p.text = t then .Success
  else .Failure ("expected output: " ++ toString p.text)

/-- The `Box<dyn Rule>` view of a `PlainText` rule. -/
def PlainText.rule (p : PlainText) : RuleImpl :=
  { generate := fun cs => .ok (p.generate, cs)
    validate := p.validate }

/-! ## The regular-expression rule (`rules.rs`)

The `regex-syntax` crate's `Hir` tree is embedded with the constructors
`RegExpr::generate_regex_item` dispatches on; a class (byte-level or
Unicode-level) is its list of inclusive sub-ranges.  The compiled
`regex::bytes::Regex` is an external artifact: it is modelled by the
standard language semantics of the same syntax tree (`Matches` below),
with `is_match` the substring-search test the crate documents. -/

/-- The parsed syntax tree of a pattern (`regex_syntax::hir::Hir`). -/
inductive Hir where
  | empty
  | literal (bytes : List ℕ)
  | classBytes (ranges : List (ℕ × ℕ))
  | classUnicode (ranges : List (ℕ × ℕ))
  | repetition (min : ℕ) (max : Option ℕ) (sub : Hir)
  | capture (sub : Hir)
  | concat (subs : List Hir)
  | alternation (subs : List Hir)
  | look (kind : ℕ)

/-- `rules.rs` `Item`: the lowered sampling plan. -/
inductive Item where
  | literal (bytes : List ℕ)
  | byteChoice (ranges : List (ℕ × ℕ))
  | charChoice (ranges : List (ℕ × ℕ))
  | rep (sub : Item) (lo hi : ℕ)
  | seq (subs : List Item)
  | anyOf (subs : List Item)

/-- `u32::saturating_mul`. -/
def satMulU32 (a b : ℕ) : ℕ := min (a * b) (2 ^ 32 - 1)

/-- The repeat-count range `generate_regex_item` derives from a
repetition's declared `{min, max}` bounds. -/
def repBounds (min : ℕ) (max : Option ℕ) : ℕ × ℕ :=
  match min, max with
  | 0, none => (0, 40)
  | 1, none => (1, 40)
  | m, none => (m, satMulU32 m 2)
  | m, some mx => (m, mx)

mutual

/-- `RegExpr::generate_regex_item`: lower a syntax tree into a sampling
plan, failing on a look-around/anchor/boundary node. -/
def generateRegexItem : Hir → Except String Item
  | .empty => .ok (.literal [])
  | .literal l => .ok (.literal l)
  | .classBytes rs => .ok (.byteChoice rs)
  | .classUnicode rs => .ok (.charChoice rs)
  | .repetition min max sub =>
    match generateRegexItem sub with
    | .error e => .error e
    | .ok item => .ok (.rep item (repBounds min max).1 (repBounds min max).2)
  | .capture sub => generateRegexItem sub
  | .concat subs =>
    match generateRegexItemList subs with
    | .error e => .error e
    | .ok items => .ok (.seq items)
  | .alternation subs =>
    match generateRegexItemList subs with
    | .error e => .error e
    | .ok items => .ok (.anyOf items)
  | .look _ => .error "this element is not supported in generation"

/-- The element-wise lowering of a node's children
(`iter().map(..).collect::<Result<_>>()`, stopping at the first error). -/
def generateRegexItemList : List Hir → Except String (List Item)
  | [] => .ok []
  | h :: hs =>
    match generateRegexItem h, generateRegexItemList hs with
    | .ok item, .ok items => .ok (item :: items)
    | .error e, _ => .error e
    | _, .error e => .error e

end

mutual

/-- The invariants `regex-syntax` guarantees for the `Hir` of a pattern
the parser accepts: every class is non-empty, repetition bounds are
ordered `u32` values, and alternations have at least one branch —
`Hir.wf` records exactly the facts the generation proof needs. -/
def Hir.wf : Hir → Bool
  | .empty => true
  | .literal _ => true
  | .classBytes rs => rs.any fun r => decide (r.1 ≤ r.2)
  | .classUnicode rs => rs.any fun r => decide (r.1 ≤ r.2)
  | .repetition min max sub =>
    decide (min < 2 ^ 32) &&
      (match max with
       | none => true
       | some m => decide (min ≤ m)) &&
      Hir.wf sub
  | .capture sub => Hir.wf sub
  | .concat subs => Hir.wfList subs
  | .alternation subs => !subs.isEmpty && Hir.wfList subs
  | .look _ => false

def Hir.wfList : List Hir → Bool
  | [] => true
  | h :: hs => Hir.wf h && Hir.wfList hs

end

/-- Draw the next value from the random oracle (an exhausted oracle keeps
answering `0`). -/
def nextChoice : List ℕ → ℕ × List ℕ
  | [] => (0, [])
  | c :: cs => (c, cs)

/-- The flattened element list of a class: all values covered by its
inclusive sub-ranges, in order (`flat_map(|range| start..=end)`). -/
def flattenRanges (rs : List (ℕ × ℕ)) : List ℕ :=
  rs.flatMap fun r => List.range' r.1 (r.2 + 1 - r.1)

/-- UTF-8 encoding of a code point, as `char::encode_utf8` produces it
(`bstr`'s `push_char`). -/
def utf8Encode (c : ℕ) : List ℕ :=
  if c < 0x80 then [c]
  else if c < 0x800 then [0xC0 + c / 64, 0x80 + c % 64]
  else if c < 0x10000 then
    [0xE0 + c / 4096, 0x80 + c / 64 % 64, 0x80 + c % 64]
  else
    [0xF0 + c / 262144, 0x80 + c / 4096 % 64, 0x80 + c / 64 % 64, 0x80 + c % 64]

mutual

/-- `Item::append_to`, with the produced bytes returned instead of pushed
into a shared buffer: each random decision (`gen_range`, a `choose` on an
iterator or slice) consumes one oracle value.  `appendToPow` is the
repeat loop, `appendToSeq` the sequence loop, and `appendToChoice` the
indexing a slice `choose` performs. -/
def appendTo : Item → List ℕ → List ℕ × List ℕ
  | .literal l, cs => (l, cs)
  | .byteChoice rs, cs =>
    match flattenRanges rs with
    | [] => ([], cs)
    | b :: bs =>
      ([(b :: bs).getD ((nextChoice cs).1 % (b :: bs).length) 0], (nextChoice cs).2)
  | .charChoice rs, cs =>
    match flattenRanges rs with
    | [] => ([], cs)
    | b :: bs =>
      (utf8Encode ((b :: bs).getD ((nextChoice cs).1 % (b :: bs).length) 0),
       (nextChoice cs).2)
  | .rep item lo hi, cs =>
    appendToPow item (lo + (nextChoice cs).1 % (hi + 1 - lo)) (nextChoice cs).2
  | .seq items, cs => appendToSeq items cs
  | .anyOf items, cs =>
    match items with
    | [] => ([], cs)
    | i :: is =>
      appendToChoice (i :: is) ((nextChoice cs).1 % (i :: is).length) (nextChoice cs).2

def appendToPow : Item → ℕ → List ℕ → List ℕ × List ℕ
  | _, 0, cs => ([], cs)
  | item, n + 1, cs =>
    ((appendTo item cs).1 ++ (appendToPow item n (appendTo item cs).2).1,
     (appendToPow item n (appendTo item cs).2).2)

def appendToSeq : List Item → List ℕ → List ℕ × List ℕ
  | [], cs => ([], cs)
  | i :: is, cs =>
    ((appendTo i cs).1 ++ (appendToSeq is (appendTo i cs).2).1,
     (appendToSeq is (appendTo i cs).2).2)

def appendToChoice : List Item → ℕ → List ℕ → List ℕ × List ℕ
  | [], _, cs => ([], cs)
  | i :: _, 0, cs => appendTo i cs
  | _ :: is, n + 1, cs => appendToChoice is n cs

end

/-- `RegExpr::generate`: lower the stored syntax tree and sample it from
an empty buffer. -/
def RegExpr.generateFrom (syn : Hir) (cs : List ℕ) : Except String (List ℕ) :=
  match generateRegexItem syn with
  | .error e => .error e
  | .ok item => .ok (appendTo item cs).1

mutual

/-- The language of a syntax tree: the standard semantics of regular
expressions, against which the compiled matcher is modelled.  A byte
class matches one covered byte, a Unicode class the UTF-8 encoding of one
covered code point, a repetition between `min` and `max` copies, an
alternation any branch; look-around nodes (zero-width assertions) are
outside the fragment the claims quantify over. -/
inductive Matches : Hir → List ℕ → Prop where
  | empty : Matches .empty []
  | literal (l : List ℕ) : Matches (.literal l) l
  | classBytes {rs : List (ℕ × ℕ)} {b : ℕ} (r : ℕ × ℕ)
      (hr : r ∈ rs) (h1 : r.1 ≤ b) (h2 : b ≤ r.2) :
      Matches (.classBytes rs) [b]
  | classUnicode {rs : List (ℕ × ℕ)} {c : ℕ} (r : ℕ × ℕ)
      (hr : r ∈ rs) (h1 : r.1 ≤ c) (h2 : c ≤ r.2) :
      Matches (.classUnicode rs) (utf8Encode c)
  | repetition {min : ℕ} {max : Option ℕ} {sub : Hir} {n : ℕ} {s : List ℕ}
      (hmin : min ≤ n) (hmax : ∀ m, max = some m → n ≤ m)
      (hs : MatchesPow sub n s) :
      Matches (.repetition min max sub) s
  | capture {sub : Hir} {s : List ℕ} (h : Matches sub s) :
      Matches (.capture sub) s
  | concat {subs : List Hir} {s : List ℕ} (h : MatchesList subs s) :
      Matches (.concat subs) s
  | alternation {subs : List Hir} {s : List ℕ} (sub : Hir)
      (hsub : sub ∈ subs) (h : Matches sub s) :
      Matches (.alternation subs) s

inductive MatchesPow : Hir → ℕ → List ℕ → Prop where
  | zero (h : Hir) : MatchesPow h 0 []
  | succ {h : Hir} {n : ℕ} {s t : List ℕ}
      (h1 : Matches h s) (h2 : MatchesPow h n t) :
      MatchesPow h (n + 1) (s ++ t)

inductive MatchesList : List Hir → List ℕ → Prop where
  | nil : MatchesList [] []
  | cons {h : Hir} {hs : List Hir} {s t : List ℕ}
      (h1 : Matches h s) (h2 : MatchesList hs t) :
      MatchesList (h :: hs) (s ++ t)

end

/-- `regex::bytes::Regex::is_match` on the compiled pattern: some
substring of the haystack is in the pattern's language. -/
def RegExpr.matcherAccepts (syn : Hir) (s : List ℕ) : Prop :=
  ∃ pre mid post, s = pre ++ mid ++ post ∧ Matches syn mid

/-! ## `RegExpr::parse` configuration (`rules.rs` and `classes.rs`)

`RegExpr::parse` hands the rule text to the external `regex-syntax`
parser and to the external `regex` compiler; what the repository itself
fixes is the configuration each one is built with. -/

/-- The builder flags `RegExpr::parse` can set. -/
structure RegexConfig where
  ignore_whitespace : Bool
  multi_line : Bool
  unicode : Bool
deriving DecidableEq, Repr

/-- `rules.rs` `RegExpr::parse`: the flags given to
`regex_syntax::ParserBuilder` for the syntax tree. -/
def RegExpr.syntaxConfig : RegexConfig :=
  { ignore_whitespace := false, multi_line := false, unicode := true }

/-- `rules.rs` `RegExpr::parse`: the flags given to `RegexBuilder` for the
compiled matcher. -/
def RegExpr.matcherConfig : RegexConfig :=
  { ignore_whitespace := false, multi_line := false, unicode := true }

/-- `classes.rs` `RegexArg::parse`: the syntax tree is parsed with
`ignore_whitespace(true)`. -/
def RegexArg.syntaxConfig : RegexConfig :=
  { ignore_whitespace := true, multi_line := false, unicode := true }

/-- `classes.rs` `RegexArg::parse`: the matcher is built with
`Regex::new`, i.e. all-default flags. -/
def RegexArg.matcherConfig : RegexConfig :=
  { ignore_whitespace := false, multi_line := false, unicode := true }

/-- Modelled from the `regex-syntax` documentation of the
`ignore_whitespace` flag (the parser itself is an external dependency):
on a pattern consisting of plain literal characters, whitespace-
insensitive parsing drops the whitespace, whitespace-sensitive parsing
keeps every byte as part of the literal. -/
def parseLiteralPattern (cfg : RegexConfig) (pat : List ℕ) : Hir :=
  .literal (if cfg.ignore_whitespace then pat.filter (fun b => !isWsByte b) else pat)

/-- `RegExpr::parse`, abstracted over the external parser/compiler `p`:
parse the syntax tree with `syntaxConfig`, then compile the matcher from
the same text with `matcherConfig`, failing as soon as either fails. -/
def RegExpr.parseWith (p : RegexConfig → List ℕ → Except String Hir)
    (pat : List ℕ) : Except String (Hir × Hir) :=
  match p RegExpr.syntaxConfig pat with
  | .error e => .error e
  | .ok syn =>
    match p RegExpr.matcherConfig pat with
    | .error e => .error e
    | .ok m => .ok (syn, m)

/-! # Theorems

First the generic library-level lemmas about the embedded Rust
primitives, then one theorem (with its witness or counterexample) per
specified claim. -/

theorem parseDigitsAux_append (xs ys : List Char) (acc : ℕ) :
    parseDigitsAux (xs ++ ys) acc =
      match parseDigitsAux xs acc with
      | some a => parseDigitsAux ys a
      | none => none := by
  induction xs generalizing acc with
  | nil => simp [parseDigitsAux]
  | cons c cs ih =>
    simp only [List.cons_append, parseDigitsAux]
    cases digitVal c with
    | none => rfl
    | some d => exact ih (acc * 10 + d)

theorem digitVal_ofNat : ∀ d, d < 10 → digitVal (Char.ofNat (48 + d)) = some d := by
  decide

theorem parseDigitsAux_digits (ds : List ℕ) (acc : ℕ) (hd : ∀ d ∈ ds, d < 10) :
    parseDigitsAux (ds.reverse.map fun d => Char.ofNat (48 + d)) acc =
      some (acc * 10 ^ ds.length + Nat.ofDigits 10 ds) := by
  induction ds generalizing acc with
  | nil => simp [parseDigitsAux, Nat.ofDigits]
  | cons d ds ih =>
    have hdd : d < 10 := hd d (by simp)
    have hds : ∀ x ∈ ds, x < 10 := fun x hx => hd x (by simp [hx])
    rw [List.reverse_cons, List.map_append, parseDigitsAux_append, ih acc hds]
    simp only [List.map_cons, List.map_nil, parseDigitsAux, digitVal_ofNat d hdd]
    rw [Nat.ofDigits_cons, List.length_cons, pow_succ]
    ring_nf

theorem parseDigits_cons (c : Char) (cs : List Char) :
    parseDigits (c :: cs) = parseDigitsAux (c :: cs) 0 := rfl

theorem natToChars_spec (n : ℕ) :
    (∀ c ∈ natToChars n, 48 ≤ c.toNat ∧ c.toNat ≤ 57) ∧
      parseDigits (natToChars n) = some n := by
  by_cases h : n = 0
  · subst h
    refine ⟨?_, by decide⟩
    intro c hc
    simp [natToChars] at hc
    subst hc
    decide
  · have hne : Nat.digits 10 n ≠ [] := Nat.digits_ne_nil_iff_ne_zero.mpr h
    have hlt : ∀ d ∈ Nat.digits 10 n, d < 10 :=
      fun d hd => Nat.digits_lt_base (by norm_num) hd
    constructor
    · intro c hc
      simp only [natToChars, if_neg h, List.mem_map, List.mem_reverse] at hc
      obtain ⟨d, hd, rfl⟩ := hc
      have : d < 10 := hlt d hd
      interval_cases d <;> decide
    · have hmain := parseDigitsAux_digits (Nat.digits 10 n) 0 hlt
      rw [Nat.ofDigits_digits, Nat.zero_mul, Nat.zero_add] at hmain
      have hform : natToChars n =
          (Nat.digits 10 n).reverse.map fun d => Char.ofNat (48 + d) := by
        simp [natToChars, if_neg h]
      rw [hform]
      cases hrev : (Nat.digits 10 n).reverse.map fun d => Char.ofNat (48 + d) with
      | nil =>
        exfalso
        apply hne
        have h2 : (Nat.digits 10 n).reverse = [] := by
          cases hrl : (Nat.digits 10 n).reverse with
          | nil => rfl
          | cons a as => rw [hrl] at hrev; simp at hrev
        simpa using h2
      | cons c cs =>
        rw [parseDigits_cons, ← hrev]
        exact hmain

theorem parseInt_neg_digits (cs : List Char) (m : ℕ)
    (hp : parseDigits cs = some m) (hm : (m : ℤ) ≤ 2 ^ 63) :
    parseInt ('-' :: cs) = some (-(m : ℤ)) := by
  simp only [parseInt]
  norm_num
  rw [hp]
  split
  · next heq => exact absurd heq (by simp)
  · next n heq =>
    injection heq with heq2
    subst heq2
    split
    · rfl
    · next hcond => exact absurd (by constructor <;> omega) hcond

theorem parseInt_pos_digits (c : Char) (cs : List Char) (m : ℕ)
    (hcm : ¬ c = '-') (hcp : ¬ c = '+')
    (hp : parseDigits (c :: cs) = some m) (hm : (m : ℤ) ≤ 2 ^ 63 - 1) :
    parseInt (c :: cs) = some (m : ℤ) := by
  simp only [parseInt, hcm, hcp]
  norm_num
  rw [hp]
  split
  · next heq => exact absurd heq (by simp)
  · next n heq =>
    injection heq with heq2
    subst heq2
    split
    · rfl
    · next hcond => exact absurd (by constructor <;> omega) hcond

theorem parseInt_intToChars (n : ℤ) (h1 : -(2 ^ 63) ≤ n) (h2 : n ≤ 2 ^ 63 - 1) :
    parseInt (intToChars n) = some n := by
  by_cases hn : n < 0
  · obtain ⟨hdig, hparse⟩ := natToChars_spec n.natAbs
    have hform : intToChars n = '-' :: natToChars n.natAbs := by
      simp [intToChars, hn]
    rw [hform, parseInt_neg_digits _ _ hparse (by omega)]
    congr 1
    omega
  · push_neg at hn
    obtain ⟨hdig, hparse⟩ := natToChars_spec n.toNat
    have hform : intToChars n = natToChars n.toNat := by
      simp [intToChars, not_lt.mpr hn]
    rw [hform]
    cases hchars : natToChars n.toNat with
    | nil => rw [hchars] at hparse; simp [parseDigits] at hparse
    | cons c cs =>
      have hc : 48 ≤ c.toNat ∧ c.toNat ≤ 57 := hdig c (by rw [hchars]; simp)
      have hcminus : ¬ c = '-' := by rintro rfl; revert hc; decide
      have hcplus : ¬ c = '+' := by rintro rfl; revert hc; decide
      rw [hchars] at hparse
      rw [parseInt_pos_digits c cs n.toNat hcminus hcplus hparse (by omega)]
      congr 1
      omega

theorem parseInt_bounds (s : List Char) (v : ℤ) (h : parseInt s = some v) :
    -(2 ^ 63) ≤ v ∧ v ≤ 2 ^ 63 - 1 := by
  cases s with
  | nil => simp [parseInt] at h
  | cons c cs =>
    simp only [parseInt] at h
    cases hpd : parseDigits (if c = '-' ∨ c = '+' then cs else c :: cs) with
    | none => rw [hpd] at h; simp at h
    | some m =>
      rw [hpd] at h
      simp only [] at h
      split at h
      · split at h
        · next hcond =>
          injection h with h2
          subst h2
          exact hcond
        · exact absurd h (by simp)
      · split at h
        · next hcond =>
          injection h with h2
          subst h2
          exact hcond
        · exact absurd h (by simp)

theorem parseRangeElem_ok_inv (e : List Char) (r : ℤ × ℤ)
    (h : parseRangeElem e = .ok r) :
    r.1 ≤ r.2 ∧ -(2 ^ 63) ≤ r.1 ∧ r.2 ≤ 2 ^ 63 - 1 := by
  unfold parseRangeElem at h
  split at h
  · split at h
    · exact absurd h (by simp)
    · next s hpa =>
      split at h
      · exact absurd h (by simp)
      · next t hpb =>
        split at h
        · exact absurd h (by simp)
        · next hle =>
          injection h with h2
          subst h2
          obtain ⟨ha1, ha2⟩ := parseInt_bounds _ _ hpa
          obtain ⟨hb1, hb2⟩ := parseInt_bounds _ _ hpb
          exact ⟨by omega, ha1, hb2⟩
  · split at h
    · exact absurd h (by simp)
    · next n hpe =>
      injection h with h2
      subst h2
      obtain ⟨h1, h2⟩ := parseInt_bounds _ _ hpe
      exact ⟨le_refl _, h1, h2⟩

theorem parseRangeElems_ok_inv (es : List (List Char)) (rs : List (ℤ × ℤ))
    (h : parseRangeElems es = .ok rs) :
    ∀ r ∈ rs, r.1 ≤ r.2 ∧ -(2 ^ 63) ≤ r.1 ∧ r.2 ≤ 2 ^ 63 - 1 := by
  induction es generalizing rs with
  | nil =>
    simp only [parseRangeElems] at h
    injection h with h2
    subst h2
    intro r hr
    simp at hr
  | cons e es ih =>
    simp only [parseRangeElems] at h
    split at h
    · exact absurd h (by simp)
    · next r0 hpe =>
      split at h
      · exact absurd h (by simp)
      · next rs0 hres =>
        injection h with h2
        subst h2
        intro r hr
        rcases List.mem_cons.mp hr with rfl | hmem
        · exact parseRangeElem_ok_inv _ _ hpe
        · exact ih rs0 hres r hmem

theorem parseRangeLines_ok_inv (ls : List (List Char)) (rs : List (ℤ × ℤ))
    (h : parseRangeLines ls = .ok rs) :
    ∀ r ∈ rs, r.1 ≤ r.2 ∧ -(2 ^ 63) ≤ r.1 ∧ r.2 ≤ 2 ^ 63 - 1 := by
  induction ls generalizing rs with
  | nil =>
    simp only [parseRangeLines] at h
    injection h with h2
    subst h2
    intro r hr
    simp at hr
  | cons l ls ih =>
    simp only [parseRangeLines] at h
    split at h
    · exact absurd h (by simp)
    · next rs1 hpe =>
      split at h
      · exact absurd h (by simp)
      · next rs2 hres =>
        injection h with h2
        subst h2
        intro r hr
        rcases List.mem_append.mp hr with hmem | hmem
        · exact parseRangeElems_ok_inv _ _ hpe r hmem
        · exact ih rs2 hres r hmem

theorem IntRanges.parse_ok_inv (text : List Char) (R : IntRanges)
    (h : IntRanges.parse text = .ok R) :
    R.ranges ≠ [] ∧
      ∀ r ∈ R.ranges, r.1 ≤ r.2 ∧ -(2 ^ 63) ≤ r.1 ∧ r.2 ≤ 2 ^ 63 - 1 := by
  unfold IntRanges.parse at h
  split at h
  · exact absurd h (by simp)
  · next ranges hpl =>
    split at h
    · exact absurd h (by simp)
    · next hne =>
      injection h with h2
      subst h2
      exact ⟨by simpa using hne, parseRangeLines_ok_inv _ _ hpl⟩

theorem parseRangeElems_ok_all (es : List (List Char)) (rs : List (ℤ × ℤ))
    (h : parseRangeElems es = .ok rs) :
    ∀ e ∈ es, ∃ r, parseRangeElem (trimChars e) = .ok r := by
  induction es generalizing rs with
  | nil => intro e he; simp at he
  | cons e0 es ih =>
    simp only [parseRangeElems] at h
    split at h
    · exact absurd h (by simp)
    · next r0 hpe =>
      split at h
      · exact absurd h (by simp)
      · next rs0 hres =>
        intro e he
        rcases List.mem_cons.mp he with rfl | hmem
        · exact ⟨r0, hpe⟩
        · exact ih rs0 hres e hmem

theorem parseRangeLines_ok_all (ls : List (List Char)) (rs : List (ℤ × ℤ))
    (h : parseRangeLines ls = .ok rs) :
    ∀ l ∈ ls, ∃ rs1, parseRangeElems (splitChar ',' l) = .ok rs1 := by
  induction ls generalizing rs with
  | nil => intro l hl; simp at hl
  | cons l0 ls ih =>
    simp only [parseRangeLines] at h
    split at h
    · exact absurd h (by simp)
    · next rs1 hpe =>
      split at h
      · exact absurd h (by simp)
      · next rs2 hres =>
        intro l hl
        rcases List.mem_cons.mp hl with rfl | hmem
        · exact ⟨rs1, hpe⟩
        · exact ih rs2 hres l hmem

theorem parseRangeElem_inverted (e a b : List Char) (s t : ℤ)
    (hsd : splitOnceDots e = some (a, b))
    (hpa : parseInt (trimChars a) = some s)
    (hpb : parseInt (trimChars b) = some t)
    (hst : t < s) :
    parseRangeElem e = .error (.invertedRange s t) := by
  simp only [parseRangeElem, hsd, hpa, hpb]
  rw [if_pos hst]

/-- C10: an explicit range token `A..B` with `A > B` is rejected with an
error naming the inverted range, and consequently every range stored in a
successfully parsed `IntRanges` value has its start at most its end. -/
theorem intRanges_inverted_policy (text : List Char) :
    (hasInvertedRange text = true → isErr (IntRanges.parse text) = true) ∧
    (∀ R, IntRanges.parse text = .ok R → ∀ r ∈ R.ranges, r.1 ≤ r.2) := by
  constructor
  · intro hinv
    cases hp : IntRanges.parse text with
    | error e => simp [isErr]
    | ok R =>
      exfalso
      simp only [hasInvertedRange, List.any_eq_true] at hinv
      obtain ⟨line, hline, e, he, hmatch⟩ := hinv
      unfold IntRanges.parse at hp
      split at hp
      · exact absurd hp (by simp)
      · next ranges hpl =>
        obtain ⟨rs1, hrs1⟩ := parseRangeLines_ok_all _ _ hpl line hline
        obtain ⟨r, hr⟩ := parseRangeElems_ok_all _ _ hrs1 e he
        split at hmatch
        · next a b heq =>
          split at hmatch
          · next s t hpa hpb =>
            rw [parseRangeElem_inverted (trimChars e) a b s t heq hpa hpb
                (by simpa using hmatch)] at hr
            exact absurd hr (by simp)
          · simp at hmatch
        · simp at hmatch
  · intro R hp r hr
    exact ((IntRanges.parse_ok_inv text R hp).2 r hr).1

theorem intRanges_inverted_policy_witness :
    hasInvertedRange ("5..3".toList) = true ∧
      isErr (IntRanges.parse ("5..3".toList)) = true :=
  ⟨by decide, (intRanges_inverted_policy ("5..3".toList)).1 (by decide)⟩

/-- C5: the six specified parses of `IntRanges::parse`: a bare integer is
a singleton range, `-123..-0` the range `[-123, 0]`, the empty text and
the malformed texts `140..` and `1,,2` are parse errors, and the spaced
comma list yields the four singleton ranges in order. -/
theorem intRanges_parse_cases :
    IntRanges.parse ("100".toList) = .ok ⟨[(100, 100)], "100".toList⟩ ∧
    IntRanges.parse ("-123..-0".toList) = .ok ⟨[(-123, 0)], "-123..-0".toList⟩ ∧
    isErr (IntRanges.parse ("".toList)) = true ∧
    isErr (IntRanges.parse ("140..".toList)) = true ∧
    isErr (IntRanges.parse ("1,,2".toList)) = true ∧
    IntRanges.parse (" 194 , 99, -150, 11037 ".toList) =
      .ok ⟨[(194, 194), (99, 99), (-150, -150), (11037, 11037)],
        " 194 , 99, -150, 11037 ".toList⟩ := by
  refine ⟨?_, ?_, ?_, ?_, ?_, ?_⟩ <;> rfl

theorem rangeWeight_pos (r : ℤ × ℤ) : 1 ≤ rangeWeight r := by
  simp [rangeWeight]

theorem pickWeighted_mem (rs : List (ℤ × ℤ)) (u : ℕ)
    (hu : u < (rs.map rangeWeight).sum) :
    ∃ r, pickWeighted rs u = some r ∧ r ∈ rs := by
  induction rs generalizing u with
  | nil => simp at hu
  | cons r0 rs ih =>
    simp only [pickWeighted]
    split
    · exact ⟨r0, rfl, by simp⟩
    · next hge =>
      simp only [List.map_cons, List.sum_cons] at hu
      have hlt : u - rangeWeight r0 < (rs.map rangeWeight).sum := by omega
      obtain ⟨r, hpick, hmem⟩ := ih _ hlt
      exact ⟨r, hpick, by simp [hmem]⟩

/-- C2: a value generated by a successfully parsed `IntRanges` rule, under
any random choices, renders to a decimal string that the same rule
validates as `Success`. -/
theorem intRanges_generate_validate (text : List Char) (R : IntRanges)
    (hp : IntRanges.parse text = .ok R) (c1 c2 : ℕ) :
    ∃ s, R.generate c1 c2 = some s ∧ R.validate s = .Success := by
  obtain ⟨hne, hinv⟩ := IntRanges.parse_ok_inv text R hp
  have htot : 0 < (R.ranges.map rangeWeight).sum := by
    cases hr : R.ranges with
    | nil => exact absurd hr hne
    | cons a as =>
      have := rangeWeight_pos a
      simp [hr]
      omega
  obtain ⟨r, hpick, hmem⟩ :=
    pickWeighted_mem _ _ (Nat.mod_lt c1 htot)
  obtain ⟨hle, hlo, hhi⟩ := hinv r hmem
  have hcnt : (r.2 - r.1 + 1).toNat ≠ 0 := by omega
  have hmod : c2 % (r.2 - r.1 + 1).toNat < (r.2 - r.1 + 1).toNat :=
    Nat.mod_lt _ (Nat.pos_of_ne_zero hcnt)
  simp only [IntRanges.generate]
  rw [hpick]
  simp only [if_neg hcnt]
  refine ⟨_, rfl, ?_⟩
  have hnum1 : r.1 ≤ r.1 + ((c2 % (r.2 - r.1 + 1).toNat : ℕ) : ℤ) := by omega
  have hnum2 : r.1 + ((c2 % (r.2 - r.1 + 1).toNat : ℕ) : ℤ) ≤ r.2 := by omega
  simp only [IntRanges.validate]
  rw [parseInt_intToChars _ (by omega) (by omega)]
  have hany : (R.ranges.any fun q =>
      decide (q.1 ≤ r.1 + ((c2 % (r.2 - r.1 + 1).toNat : ℕ) : ℤ) ∧
        r.1 + ((c2 % (r.2 - r.1 + 1).toNat : ℕ) : ℤ) ≤ q.2)) = true :=
    List.any_eq_true.mpr ⟨r, hmem, by
      simp only [decide_eq_true_eq]
      exact ⟨hnum1, hnum2⟩⟩
  simp only [hany, if_true]

theorem intRanges_generate_validate_witness :
    IntRanges.parse ("1..3".toList) = .ok ⟨[(1, 3)], "1..3".toList⟩ ∧
      ∃ s, IntRanges.generate ⟨[(1, 3)], "1..3".toList⟩ 0 5 = some s ∧
        IntRanges.validate ⟨[(1, 3)], "1..3".toList⟩ s = .Success :=
  ⟨by rfl, intRanges_generate_validate ("1..3".toList) ⟨[(1, 3)], "1..3".toList⟩ (by rfl) 0 5⟩

theorem trimEndBytes_spec (chunk : List ℕ) :
    ∃ ws, chunk = trimEndBytes chunk ++ ws ∧
      (∀ b ∈ ws, isWsByte b = true) ∧
      (∀ b, (trimEndBytes chunk).getLast? = some b → isWsByte b = false) := by
  refine ⟨(chunk.reverse.takeWhile isWsByte).reverse, ?_, ?_, ?_⟩
  · rw [trimEndBytes, ← List.reverse_append, List.takeWhile_append_dropWhile,
      List.reverse_reverse]
  · intro b hb
    rw [List.mem_reverse] at hb
    exact List.mem_takeWhile_imp hb
  · intro b hb
    rw [trimEndBytes, List.getLast?_reverse] at hb
    have hhead : (chunk.reverse.dropWhile isWsByte).head? = some b := hb
    revert hhead
    generalize chunk.reverse = l
    induction l with
    | nil => intro hh; simp [List.dropWhile] at hh
    | cons a as ih =>
      intro hh
      rw [List.dropWhile_cons] at hh
      by_cases hp : isWsByte a
      · simp [hp] at hh
        exact ih hh
      · simp [hp] at hh
        subst hh
        simpa using hp

/-- C6: the code diverges from the claimed classification.  Since
`wait_with_output` can only ever report empty stdout and stderr in this
program (the stdout handle was taken into the reader at spawn, stderr
was never piped), `finish` never returns `NonEmptyStdout`, never appends
a residual-output entry to the transcript, and `ProgramError` never
carries stderr bytes — and a zero-exit child with an unread pending
chunk (the line `x` here) is classified `Success` instead of the claimed
excess-output outcome. -/
theorem finish_excess_output_unreachable :
    (∀ (c : Communicator) (out : ProcessExit) (h : List HistItem),
      c.finish out ≠ .NonEmptyStdout h) ∧
    (∀ (c : Communicator) (out : ProcessExit),
      (c.finish out).histOf = c.history) ∧
    (∀ (c : Communicator) (out : ProcessExit) (h : List HistItem) (sb : List ℕ),
      c.finish out = .ProgramError h sb → sb = []) ∧
    Communicator.finish ⟨[[120, 10]], [], []⟩ ⟨true⟩ = .Success [] := by
  refine ⟨?_, ?_, ?_, rfl⟩
  · intro c out h
    unfold Communicator.finish
    cases out.exit_success <;> simp
  · intro c out
    unfold Communicator.finish
    cases out.exit_success <;> simp [CommReport.histOf]
  · intro c out h sb hfin
    unfold Communicator.finish at hfin
    cases hex : out.exit_success
    · rw [hex] at hfin
      simp only [if_false, Bool.false_eq_true] at hfin
      injection hfin with h1 h2
      exact h2.symm
    · rw [hex] at hfin
      simp at hfin

/-- C7 counterexample: the `Sent` transcript entry `write_line` records is
not the pre-terminator line — on the line `ping` the recorded entry
contains the appended newline byte. -/
theorem write_line_history_counterexample :
    (Communicator.write_line ⟨[], [], []⟩ [112, 105, 110, 103]).history ≠
      [HistItem.Stdin [112, 105, 110, 103]] := by
  decide

/-- C7 (amended): `write_line` writes the line plus exactly one appended
newline terminator to the process's input stream, and records those
written bytes — terminator included — as the `Stdin` transcript entry. -/
theorem write_line_spec (c : Communicator) (line : List ℕ) :
    (c.write_line line).sentBytes = c.sentBytes ++ (line ++ [10]) ∧
    (c.write_line line).history = c.history ++ [HistItem.Stdin (line ++ [10])] ∧
    (c.write_line line).pending = c.pending := by
  simp [Communicator.write_line]

/-- C8 counterexample: on the chunk `"abc \n"` (a trailing space before
the line terminator) `read_line` returns `"abc"`, not the
claim's terminator-only-stripped `"abc "`. -/
theorem read_line_strips_trailing_space :
    (Communicator.read_line ⟨[[97, 98, 99, 32, 10]], [], []⟩).1 = [97, 98, 99] ∧
      [(97 : ℕ), 98, 99] ≠ [97, 98, 99, 32] := by
  constructor
  · rfl
  · decide

/-- C8 (amended): `read_line` strips the maximal trailing run of
whitespace bytes — the line terminator but also trailing spaces and tabs —
from the chunk, and appends a `Stdout` (received) transcript entry holding
exactly the stripped bytes. -/
theorem read_line_spec (c : Communicator) :
    ∃ ws, c.pending.headD [] = (c.read_line).1 ++ ws ∧
      (∀ b ∈ ws, isWsByte b = true) ∧
      (∀ b, (c.read_line).1.getLast? = some b → isWsByte b = false) ∧
      (c.read_line).2.history = c.history ++ [HistItem.Stdout (c.read_line).1] ∧
      (c.read_line).2.pending = c.pending.tail := by
  obtain ⟨ws, h1, h2, h3⟩ := trimEndBytes_spec (c.pending.headD [])
  exact ⟨ws, h1, h2, h3, rfl, rfl⟩

theorem runTestsLoop_allSuccess (N : ℕ) (hN : N < 2 ^ 32) :
    ∀ solved, solved ≤ N →
      (runTestsLoop (fun _ => .Success) N solved).1 = .Success ∧
      (runTestsLoop (fun _ => .Success) N solved).2.1 = N - solved := by
  have hmod : N % 2 ^ 32 = N := Nat.mod_eq_of_lt hN
  suffices h : ∀ k solved, solved ≤ N → N - solved = k →
      (runTestsLoop (fun _ => .Success) N solved).1 = .Success ∧
      (runTestsLoop (fun _ => .Success) N solved).2.1 = N - solved by
    intro solved hle
    exact h (N - solved) solved hle rfl
  intro k
  induction k with
  | zero =>
    intro solved hle hk
    have hsN : solved = N := by omega
    subst hsN
    rw [runTestsLoop]
    split
    · next hcond => exact absurd hcond (by omega)
    · simp
  | succ k ih =>
    intro solved hle hk
    have hlt : solved < N := by omega
    have hstep : (solved + 1) % 2 ^ 32 = solved + 1 := Nat.mod_eq_of_lt (by omega)
    rw [runTestsLoop]
    split
    · have hrec := ih (solved + 1) (by omega) (by omega)
      simp only [hstep]
      refine ⟨hrec.1, ?_⟩
      rw [hrec.2]
      omega
    · next hcond => exact absurd (by omega : solved < N % 2 ^ 32) hcond

theorem runTestsLoop_reaches (N : ℕ) (hN : N < 2 ^ 32) :
    ∀ solved, solved < N →
      N ∈ (runTestsLoop (fun _ => .Success) N solved).2.2 := by
  suffices h : ∀ k solved, solved < N → N - solved = k →
      N ∈ (runTestsLoop (fun _ => .Success) N solved).2.2 by
    intro solved hlt
    exact h (N - solved) solved hlt rfl
  intro k
  induction k with
  | zero => intro solved hlt hk; omega
  | succ k ih =>
    intro solved hlt hk
    have hstep : (solved + 1) % 2 ^ 32 = solved + 1 := Nat.mod_eq_of_lt (by omega)
    rw [runTestsLoop]
    split
    · simp only [hstep, List.mem_cons]
      by_cases hend : solved + 1 = N
      · exact Or.inl hend.symm
      · exact Or.inr (ih (solved + 1) (by omega) (by omega))
    · next hcond => exact absurd (by omega : solved < N % 2 ^ 32) hcond

/-- C3: against always-successful trials with a required count of `N`
(`1 ≤ N`, a `u32`), the repeated-trial loop reports `Success`, executes
exactly `N` trials, and the shared solved counter takes the value `N`
during the run. -/
theorem run_tests_exact_trials (N : ℕ) (h1 : 1 ≤ N) (h2 : N < 2 ^ 32) :
    (runTestsLoop (fun _ => .Success) N 0).1 = .Success ∧
    (runTestsLoop (fun _ => .Success) N 0).2.1 = N ∧
    N ∈ (runTestsLoop (fun _ => .Success) N 0).2.2 := by
  obtain ⟨ha, hb⟩ := runTestsLoop_allSuccess N h2 0 (by omega)
  exact ⟨ha, by simpa using hb, runTestsLoop_reaches N h2 0 (by omega)⟩

theorem run_tests_exact_trials_witness :
    1 ≤ 5 ∧ 5 < 2 ^ 32 ∧
      ((runTestsLoop (fun _ => .Success) 5 0).1 = .Success ∧
        (runTestsLoop (fun _ => .Success) 5 0).2.1 = 5 ∧
        5 ∈ (runTestsLoop (fun _ => .Success) 5 0).2.2) :=
  ⟨by decide, by decide, run_tests_exact_trials 5 (by decide) (by decide)⟩

theorem execOps_runSingle (pre : List Operation) (comm comm' : Communicator)
    (cs cs' : List ℕ) (h : execOps pre comm cs = some (comm', cs')) :
    ∀ (rest : List Operation) (px : ProcessExit),
      runSingle (pre ++ rest) comm cs px = runSingle rest comm' cs' px := by
  induction pre generalizing comm cs with
  | nil =>
    simp only [execOps] at h
    injection h with h2
    injection h2 with h3 h4
    subst h3
    subst h4
    simp
  | cons op ops ih =>
    intro rest px
    simp only [execOps] at h
    split at h
    · next s comm1 cs1 hexec =>
      rw [List.cons_append, runSingle, hexec]
      exact ih comm1 cs1 h rest px
    · exact absurd h (by simp)

/-- C4: when an `Output` operation's validation fails, `run_single`
returns a `Failure` carrying the whole transcript accumulated so far (the
just-read line included) together with that operation's diagnostic
message, and the result does not depend on the operations after the
failing one nor on the process's exit — nothing past the failure is
executed. -/
theorem run_single_short_circuit (pre post : List Operation) (rule : RuleImpl)
    (comm comm' : Communicator) (cs cs' : List ℕ) (px : ProcessExit) (msg : String)
    (hpre : execOps pre comm cs = some (comm', cs'))
    (hfail : rule.validate (comm'.read_line).1 = .Failure msg) :
    runSingle (pre ++ Operation.Output rule :: post) comm cs px =
      .ok (.Failure (comm'.read_line).2.history msg) ∧
    ∀ (post2 : List Operation) (px2 : ProcessExit),
      runSingle (pre ++ Operation.Output rule :: post) comm cs px =
        runSingle (pre ++ Operation.Output rule :: post2) comm cs px2 := by
  have hstep : ∀ (post1 : List Operation) (px1 : ProcessExit),
      runSingle (pre ++ Operation.Output rule :: post1) comm cs px1 =
        .ok (.Failure (comm'.read_line).2.history msg) := by
    intro post1 px1
    rw [execOps_runSingle pre comm comm' cs cs' hpre]
    rw [runSingle]
    simp only [Operation.exec, hfail]
  exact ⟨hstep post px, fun post2 px2 => by rw [hstep post px, hstep post2 px2]⟩

theorem run_single_short_circuit_witness :
    execOps [Operation.Input (PlainText.rule ⟨[112, 105, 110, 103]⟩)]
        ⟨[[119, 114, 111, 110, 103, 10]], [], []⟩ [] =
      some (⟨[[119, 114, 111, 110, 103, 10]], [112, 105, 110, 103, 10],
        [HistItem.Stdin [112, 105, 110, 103, 10]]⟩, []) ∧
    (PlainText.rule ⟨[112, 111, 110, 103]⟩).validate
        ((Communicator.read_line ⟨[[119, 114, 111, 110, 103, 10]],
          [112, 105, 110, 103, 10],
          [HistItem.Stdin [112, 105, 110, 103, 10]]⟩).1) =
      .Failure ("expected output: " ++ toString [(112 : ℕ), 111, 110, 103]) ∧
    runSingle
        ([Operation.Input (PlainText.rule ⟨[112, 105, 110, 103]⟩)] ++
          Operation.Output (PlainText.rule ⟨[112, 111, 110, 103]⟩) :: [])
        ⟨[[119, 114, 111, 110, 103, 10]], [], []⟩ [] ⟨true⟩ =
      .ok (.Failure
        [HistItem.Stdin [112, 105, 110, 103, 10],
          HistItem.Stdout [119, 114, 111, 110, 103]]
        ("expected output: " ++ toString [(112 : ℕ), 111, 110, 103])) := by
  refine ⟨by rfl, by rfl, ?_⟩
  have h := run_single_short_circuit
    [Operation.Input (PlainText.rule ⟨[112, 105, 110, 103]⟩)] []
    (PlainText.rule ⟨[112, 111, 110, 103]⟩)
    ⟨[[119, 114, 111, 110, 103, 10]], [], []⟩
    ⟨[[119, 114, 111, 110, 103, 10]], [112, 105, 110, 103, 10],
      [HistItem.Stdin [112, 105, 110, 103, 10]]⟩
    [] [] ⟨true⟩
    ("expected output: " ++ toString [(112 : ℕ), 111, 110, 103])
    (by rfl) (by rfl)
  exact h.1

theorem flattenRanges_mem (rs : List (ℕ × ℕ)) (b : ℕ)
    (h : b ∈ flattenRanges rs) : ∃ r ∈ rs, r.1 ≤ b ∧ b ≤ r.2 := by
  unfold flattenRanges at h
  obtain ⟨r, hr, hb⟩ := List.mem_flatMap.mp h
  rw [List.mem_range'_1] at hb
  exact ⟨r, hr, by omega⟩

theorem flattenRanges_ne_nil (rs : List (ℕ × ℕ))
    (h : (rs.any fun r => decide (r.1 ≤ r.2)) = true) :
    flattenRanges rs ≠ [] := by
  obtain ⟨r, hr, hle⟩ := List.any_eq_true.mp h
  rw [decide_eq_true_eq] at hle
  intro hnil
  have : r.1 ∈ flattenRanges rs := by
    unfold flattenRanges
    exact List.mem_flatMap.mpr ⟨r, hr, List.mem_range'_1.mpr ⟨le_refl _, by omega⟩⟩
  rw [hnil] at this
  simp at this

theorem getD_mod_mem (l : List ℕ) (i : ℕ) (h : l ≠ []) :
    l.getD (i % l.length) 0 ∈ l := by
  have hlen : 0 < l.length := List.length_pos.mpr h
  have hlt : i % l.length < l.length := Nat.mod_lt _ hlen
  rw [List.getD_eq_getElem l 0 hlt]
  exact l.getElem_mem hlt

theorem appendToChoice_eq (l : List Item) (n : ℕ) (cs : List ℕ)
    (h : n < l.length) :
    appendToChoice l n cs = appendTo (l.get ⟨n, h⟩) cs := by
  induction l generalizing n with
  | nil => simp at h
  | cons i is ih =>
    cases n with
    | zero => simp only [appendToChoice, List.get]
    | succ n =>
      simp only [appendToChoice, List.get]
      exact ih n (by simpa using h)

theorem generateRegexItemList_length (hs : List Hir) (its : List Item)
    (h : generateRegexItemList hs = .ok its) : its.length = hs.length := by
  induction hs generalizing its with
  | nil =>
    simp only [generateRegexItemList] at h
    injection h with h2
    subst h2
    rfl
  | cons h0 hs ih =>
    simp only [generateRegexItemList] at h
    split at h
    · next item items hitem hitems =>
      injection h with h2
      subst h2
      simp [ih items hitems]
    · exact absurd h (by simp)
    · exact absurd h (by simp)

theorem generateRegexItemList_get (hs : List Hir) (its : List Item)
    (h : generateRegexItemList hs = .ok its) :
    ∀ i (hi : i < hs.length) (hi' : i < its.length),
      generateRegexItem (hs.get ⟨i, hi⟩) = .ok (its.get ⟨i, hi'⟩) := by
  induction hs generalizing its with
  | nil => intro i hi; simp at hi
  | cons h0 hs ih =>
    simp only [generateRegexItemList] at h
    split at h
    · next item items hitem hitems =>
      injection h with h2
      subst h2
      intro i hi hi'
      cases i with
      | zero => exact hitem
      | succ i => exact ih items hitems i (by simpa using hi) (by simpa using hi')
    · exact absurd h (by simp)
    · exact absurd h (by simp)

theorem wfList_mem (hs : List Hir) (h : Hir.wfList hs = true) :
    ∀ x ∈ hs, Hir.wf x = true := by
  induction hs with
  | nil => intro x hx; simp at hx
  | cons h0 hs ih =>
    rw [Hir.wfList, Bool.and_eq_true] at h
    intro x hx
    rcases List.mem_cons.mp hx with rfl | hmem
    · exact h.1
    · exact ih h.2 x hmem

theorem repBounds_sample (min : ℕ) (max : Option ℕ) (c : ℕ)
    (hmin : min < 2 ^ 32)
    (hmax : ∀ m, max = some m → min ≤ m) :
    min ≤ (repBounds min max).1 + c % ((repBounds min max).2 + 1 - (repBounds min max).1) ∧
      ∀ m, max = some m →
        (repBounds min max).1 + c % ((repBounds min max).2 + 1 - (repBounds min max).1) ≤ m := by
  cases max with
  | none =>
    refine ⟨?_, by intro m hm; exact absurd hm (by simp)⟩
    match min with
    | 0 => simp [repBounds]
    | 1 => simp [repBounds]
    | (m + 2) =>
      have : repBounds (m + 2) none = (m + 2, satMulU32 (m + 2) 2) := rfl
      rw [this]
      simp
  | some mx =>
    have hminmx : min ≤ mx := hmax mx rfl
    have hb : repBounds min (some mx) = (min, mx) := by
      match min with
      | 0 => rfl
      | 1 => rfl
      | (m + 2) => rfl
    rw [hb]
    have hred : ((min, mx).2 + 1 - (min, mx).1 : ℕ) = mx + 1 - min := rfl
    have hred1 : ((min, mx).1 : ℕ) = min := rfl
    rw [hred, hred1]
    have hcm : c % (mx + 1 - min) < mx + 1 - min := Nat.mod_lt _ (by omega)
    exact ⟨by omega, by intro m hm; injection hm with h2; subst h2; omega⟩

mutual

theorem matches_appendTo (h : Hir) (it : Item) (hwf : Hir.wf h = true)
    (hgen : generateRegexItem h = .ok it) (cs : List ℕ) :
    Matches h (appendTo it cs).1 := by
  cases h with
  | empty =>
    simp only [generateRegexItem] at hgen
    injection hgen with h2
    subst h2
    simp only [appendTo]
    exact Matches.empty
  | literal l =>
    simp only [generateRegexItem] at hgen
    injection hgen with h2
    subst h2
    simp only [appendTo]
    exact Matches.literal l
  | classBytes rs =>
    simp only [generateRegexItem] at hgen
    injection hgen with h2
    subst h2
    simp only [Hir.wf] at hwf
    have hne := flattenRanges_ne_nil rs hwf
    cases hflat : flattenRanges rs with
    | nil => exact absurd hflat hne
    | cons b bs =>
      simp only [appendTo, hflat]
      have hmem : (b :: bs).getD ((nextChoice cs).1 % (b :: bs).length) 0 ∈ b :: bs :=
        getD_mod_mem _ _ (by simp)
      have hmem2 : (b :: bs).getD ((nextChoice cs).1 % (b :: bs).length) 0 ∈
          flattenRanges rs := by
        rw [hflat]
        exact hmem
      obtain ⟨r, hr, h1, h2⟩ := flattenRanges_mem rs _ hmem2
      exact Matches.classBytes r hr h1 h2
  | classUnicode rs =>
    simp only [generateRegexItem] at hgen
    injection hgen with h2
    subst h2
    simp only [Hir.wf] at hwf
    have hne := flattenRanges_ne_nil rs hwf
    cases hflat : flattenRanges rs with
    | nil => exact absurd hflat hne
    | cons b bs =>
      simp only [appendTo, hflat]
      have hmem : (b :: bs).getD ((nextChoice cs).1 % (b :: bs).length) 0 ∈ b :: bs :=
        getD_mod_mem _ _ (by simp)
      have hmem2 : (b :: bs).getD ((nextChoice cs).1 % (b :: bs).length) 0 ∈
          flattenRanges rs := by
        rw [hflat]
        exact hmem
      obtain ⟨r, hr, h1, h2⟩ := flattenRanges_mem rs _ hmem2
      exact Matches.classUnicode r hr h1 h2
  | repetition mn mx sub =>
    simp only [generateRegexItem] at hgen
    split at hgen
    · exact absurd hgen (by simp)
    · next item hsub =>
      injection hgen with h2
      subst h2
      simp only [Hir.wf, Bool.and_eq_true] at hwf
      obtain ⟨⟨hmn, hmx⟩, hsubwf⟩ := hwf
      rw [decide_eq_true_eq] at hmn
      have hmax : ∀ m, mx = some m → mn ≤ m := by
        intro m hm
        subst hm
        simpa using hmx
      simp only [appendTo]
      exact Matches.repetition
        (repBounds_sample mn mx ((nextChoice cs).1) hmn hmax).1
        (repBounds_sample mn mx ((nextChoice cs).1) hmn hmax).2
        (matchesPow_appendToPow sub item hsubwf hsub _ _)
  | capture sub =>
    simp only [generateRegexItem] at hgen
    simp only [Hir.wf] at hwf
    exact Matches.capture (matches_appendTo sub it hwf hgen cs)
  | concat subs =>
    simp only [generateRegexItem] at hgen
    split at hgen
    · exact absurd hgen (by simp)
    · next items hitems =>
      injection hgen with h2
      subst h2
      simp only [Hir.wf] at hwf
      simp only [appendTo]
      exact Matches.concat (matchesList_appendToSeq subs items hwf hitems cs)
  | alternation subs =>
    simp only [generateRegexItem] at hgen
    split at hgen
    · exact absurd hgen (by simp)
    · next items hitems =>
      injection hgen with h2
      subst h2
      simp only [Hir.wf, Bool.and_eq_true] at hwf
      obtain ⟨hne, hwfl⟩ := hwf
      have hlen := generateRegexItemList_length subs items hitems
      cases items with
      | nil =>
        exfalso
        have hsub : subs = [] := by
          simp only [List.length_nil] at hlen
          exact List.length_eq_zero.mp hlen.symm
        subst hsub
        simp at hne
      | cons i is =>
        have hidxlt : (nextChoice cs).1 % (i :: is).length < (i :: is).length :=
          Nat.mod_lt _ (by simp)
        have hidxlt2 : (nextChoice cs).1 % (i :: is).length < subs.length := by
          rw [← hlen]
          exact hidxlt
        simp only [appendTo]
        rw [appendToChoice_eq (i :: is) _ (nextChoice cs).2 hidxlt]
        have hg := generateRegexItemList_get subs (i :: is) hitems _ hidxlt2 hidxlt
        have hszmem := List.sizeOf_lt_of_mem
          (List.get_mem subs ((nextChoice cs).1 % (i :: is).length) hidxlt2)
        exact Matches.alternation
          (subs.get ⟨(nextChoice cs).1 % (i :: is).length, hidxlt2⟩)
          (List.get_mem subs _ hidxlt2)
          (matches_appendTo
            (subs.get ⟨(nextChoice cs).1 % (i :: is).length, hidxlt2⟩)
            ((i :: is).get ⟨(nextChoice cs).1 % (i :: is).length, hidxlt⟩)
            (wfList_mem subs hwfl _ (List.get_mem subs _ hidxlt2))
            hg (nextChoice cs).2)
  | look k =>
    simp only [generateRegexItem] at hgen
    exact absurd hgen (by simp)
termination_by (sizeOf h, 0)
decreasing_by
  all_goals first
    | decreasing_tactic
    | (subst_vars
       simp only [Hir.alternation.sizeOf_spec]
       have hsz : sizeOf subs[(nextChoice cs).1 % (is.length + 1)] < sizeOf subs := by
         simpa using hszmem
       omega)

theorem matchesPow_appendToPow (h : Hir) (it : Item) (hwf : Hir.wf h = true)
    (hgen : generateRegexItem h = .ok it) (n : ℕ) (cs : List ℕ) :
    MatchesPow h n (appendToPow it n cs).1 := by
  cases n with
  | zero =>
    simp only [appendToPow]
    exact MatchesPow.zero h
  | succ n =>
    simp only [appendToPow]
    exact MatchesPow.succ (matches_appendTo h it hwf hgen cs)
      (matchesPow_appendToPow h it hwf hgen n (appendTo it cs).2)
termination_by (sizeOf h, n + 1)

theorem matchesList_appendToSeq (hs : List Hir) (its : List Item)
    (hwf : Hir.wfList hs = true) (hgen : generateRegexItemList hs = .ok its)
    (cs : List ℕ) :
    MatchesList hs (appendToSeq its cs).1 := by
  cases hs with
  | nil =>
    simp only [generateRegexItemList] at hgen
    injection hgen with h2
    subst h2
    simp only [appendToSeq]
    exact MatchesList.nil
  | cons h0 hs =>
    simp only [generateRegexItemList] at hgen
    split at hgen
    · next item items hitem hitems =>
      injection hgen with h2
      subst h2
      rw [Hir.wfList, Bool.and_eq_true] at hwf
      simp only [appendToSeq]
      exact MatchesList.cons (matches_appendTo h0 item hwf.1 hitem cs)
        (matchesList_appendToSeq hs items hwf.2 hitems (appendTo item cs).2)
    · exact absurd hgen (by simp)
    · exact absurd hgen (by simp)
termination_by (sizeOf hs, 0)

end

/-- C1: for every syntax tree of a pattern the parser accepts (`Hir.wf`
records the parser's invariants) in which the lowering meets no
look-around/anchor/boundary node, and for every sequence of random
choices, the byte string `RegExpr::generate` returns lies in the
pattern's language, hence the compiled matcher accepts it and
`RegExpr::validate` reports success. -/
theorem regex_generate_validates (h : Hir) (hwf : Hir.wf h = true)
    (cs : List ℕ) (s : List ℕ) (hgen : RegExpr.generateFrom h cs = .ok s) :
    Matches h s ∧ RegExpr.matcherAccepts h s := by
  unfold RegExpr.generateFrom at hgen
  split at hgen
  · exact absurd hgen (by simp)
  · next item hitem =>
    injection hgen with h2
    subst h2
    have hm := matches_appendTo h item hwf hitem cs
    exact ⟨hm, [], (appendTo item cs).1, [], by simp, hm⟩

/-- A pattern exercising literals, bounded repetition over a byte class,
alternation, and a capture group around a Unicode class:
`ping[0-9]+(a|(X))` with `X` the Cyrillic capital letters. -/
def hirWitnessExample : Hir :=
  .concat [.literal [112, 105, 110, 103],
    .repetition 1 none (.classBytes [(48, 57)]),
    .alternation [.literal [97], .capture (.classUnicode [(1040, 1071)])]]

theorem regex_generate_validates_witness :
    Hir.wf hirWitnessExample = true ∧
    RegExpr.generateFrom hirWitnessExample [3, 7, 1, 5] =
      .ok [112, 105, 110, 103, 55, 49, 53, 48, 97] ∧
    (Matches hirWitnessExample [112, 105, 110, 103, 55, 49, 53, 48, 97] ∧
      RegExpr.matcherAccepts hirWitnessExample
        [112, 105, 110, 103, 55, 49, 53, 48, 97]) :=
  ⟨rfl,
   by simp [hirWitnessExample, RegExpr.generateFrom, generateRegexItem,
     generateRegexItemList, appendTo, appendToSeq, appendToPow, appendToChoice,
     repBounds, flattenRanges, nextChoice, List.range', List.getD],
   regex_generate_validates hirWitnessExample rfl [3, 7, 1, 5]
     [112, 105, 110, 103, 55, 49, 53, 48, 97]
     (by simp [hirWitnessExample, RegExpr.generateFrom, generateRegexItem,
       generateRegexItemList, appendTo, appendToSeq, appendToPow, appendToChoice,
       repBounds, flattenRanges, nextChoice, List.range', List.getD])⟩

/-- C9 counterexample: `RegExpr::parse` in `rules.rs` sets
`ignore_whitespace` to `false` for both the syntax tree and the matcher,
so parsing is whitespace-sensitive: the pattern `a b` does not parse to
the same syntax tree as `ab`. -/
theorem regexpr_whitespace_counterexample :
    RegExpr.syntaxConfig.ignore_whitespace = false ∧
    RegExpr.matcherConfig.ignore_whitespace = false ∧
    parseLiteralPattern RegExpr.syntaxConfig [97, 32, 98] ≠
      parseLiteralPattern RegExpr.syntaxConfig [97, 98] := by
  refine ⟨rfl, rfl, ?_⟩
  simp [parseLiteralPattern, RegExpr.syntaxConfig]

/-- C9 (amended): `RegExpr::parse` parses the syntax tree and compiles the
matcher from the same text with the same whitespace-sensitive
configuration (`ignore_whitespace` off, `multi_line` off, `unicode` on) —
a whitespace byte in a pattern stays a literal — and succeeds exactly when
both the parse and the compile succeed.  (`RegexArg::parse` in
`classes.rs`, by contrast, enables `ignore_whitespace` for the syntax
tree only, not for the compiled matcher.) -/
theorem regexpr_parse_config (p : RegexConfig → List ℕ → Except String Hir)
    (pat : List ℕ) :
    RegExpr.syntaxConfig = RegExpr.matcherConfig ∧
    RegExpr.syntaxConfig =
      { ignore_whitespace := false, multi_line := false, unicode := true } ∧
    parseLiteralPattern RegExpr.syntaxConfig pat = .literal pat ∧
    (isErr (RegExpr.parseWith p pat) = false ↔
      isErr (p RegExpr.syntaxConfig pat) = false ∧
        isErr (p RegExpr.matcherConfig pat) = false) ∧
    RegexArg.syntaxConfig.ignore_whitespace = true ∧
    RegexArg.matcherConfig.ignore_whitespace = false := by
  refine ⟨rfl, rfl, rfl, ?_, rfl, rfl⟩
  unfold RegExpr.parseWith
  cases hs : p RegExpr.syntaxConfig pat with
  | error e => simp [isErr]
  | ok syn =>
    cases hm : p RegExpr.matcherConfig pat with
    | error e => simp [isErr]
    | ok m => simp [isErr]
